import Mathlib

set_option maxRecDepth 10000
/-!
Verification of the PonniyinSelvan community-detection pipeline.

The Lean definitions below are a shallow embedding of the Python sources:
  * `run_cpm_visualize.py`   — `read_data`, `build_threshold_graph`,
    `get_community_label_map`
  * `run_plotly_network.py`  — `read_inputs`, `build_graph`,
    `detect_communities`, `make_plotly_html` (layout call)
  * `export_plotly_dashboard.py` — `read_inputs`, `build_graph`,
    `detect_communities`, `build_positions`, `community_labels`, and the
    client-side `applyFilters` / search handler of `HTML_TEMPLATE`
  * `export_vis_draggable.py` — the client-side `applyFilters` / search
    handler of `VIS_TEMPLATE`

Machine reals (Python floats) are modelled as `ℚ`; an empty CSV cell in the
`weight` column (which pandas parses as NaN) is modelled as `Option ℚ` with
`none` standing for NaN, whose every ordered comparison is false.
-/

/-- First-occurrence deduplication: `newKeys seen l` lists the elements of
`l` not in `seen`, each once, in order of first occurrence.  This models the
insertion order of a Python `dict` / `set` built by iterating `l`. -/
def newKeys {α : Type} [DecidableEq α] (seen : List α) : List α → List α
  | [] => []
  | a :: l => if a ∈ seen then newKeys seen l else a :: newKeys (a :: seen) l

/-- The unordered-pair test used by `networkx.Graph` edge lookup:
`G.has_edge(u, v)` matches an edge stored as `(u, v)` or `(v, u)`. -/
def sameUPair {α : Type} [DecidableEq α] (p q : α × α) : Bool :=
  (decide (p.1 = q.1) && decide (p.2 = q.2)) ||
  (decide (p.1 = q.2) && decide (p.2 = q.1))

/-- The undirected weighted graph built by `build_graph` /
`build_threshold_graph`: a list of edge entries, one per unordered node
pair, in insertion order, each carrying the aggregated weight. -/
structure GraphS (α : Type) where
  entries : List ((α × α) × ℚ)
deriving DecidableEq

/-- `G.has_edge(u, v)`. -/
def hasEdgeB {α : Type} [DecidableEq α] (G : GraphS α) (u v : α) : Bool :=
  G.entries.any (fun e => sameUPair e.1 (u, v))

/-- `G[u][v]["weight"] += w`: add `w` to the first (unique) entry whose
unordered pair matches `(u, v)`. -/
def bumpWeight {α : Type} [DecidableEq α] :
    List ((α × α) × ℚ) → α → α → ℚ → List ((α × α) × ℚ)
  | [], _, _, _ => []
  | e :: es, u, v, w =>
    if sameUPair e.1 (u, v) then (e.1, e.2 + w) :: es
    else e :: bumpWeight es u v w

/-- One record's effect in `build_graph` once its weight passed the
threshold test: `if G.has_edge(u,v): G[u][v]["weight"] += w else:
G.add_edge(u, v, weight=w)`. -/
def add_edge_agg {α : Type} [DecidableEq α] (G : GraphS α) (u v : α)
    (w : ℚ) : GraphS α :=
  if hasEdgeB G u v then ⟨bumpWeight G.entries u v w⟩
  else ⟨G.entries ++ [((u, v), w)]⟩

/-- A raw edge record as seen by `build_graph` after `read_inputs` /
`read_data` ensured a `weight` column exists.  `weight = none` models an
empty CSV cell, which pandas parses as NaN. -/
structure RawRow where
  source : String
  target : String
  weight : Option ℚ
deriving DecidableEq

/-- A raw edge table: which of the three relevant columns the CSV has,
plus its rows.  (`source`/`target` cell values are only meaningful when the
corresponding column exists.) -/
structure RawTable where
  hasSource : Bool
  hasTarget : Bool
  hasWeight : Bool
  rows : List RawRow
deriving DecidableEq

/-- The per-record threshold test `w >= threshold` where `w =
float(row.get("weight", 1))`.  A `none` weight is NaN, and every ordered
comparison against NaN is false. -/
def survives (ow : Option ℚ) (th : ℚ) : Bool :=
  match ow with
  | some w => decide (th ≤ w)
  | none => false

/-- The numeric value folded into the aggregate when the record survives
(surviving records always carry `some w`). -/
def weightValue (ow : Option ℚ) : ℚ := ow.getD 0

/-- One iteration of the `build_graph` loop body. -/
def addRecord (G : GraphS String) (r : RawRow) (th : ℚ) : GraphS String :=
  if survives r.weight th then add_edge_agg G r.source r.target (weightValue r.weight)
  else G

/-- The pure part of the `build_graph` loop: fold all records into the
accumulating graph. -/
def buildFold : List RawRow → GraphS String → ℚ → GraphS String
  | [], G, _ => G
  | r :: rs, G, th => buildFold rs (addRecord G r th) th

/-- Errors raised by the ingestion code. -/
inductive InputError
  | missingRequiredColumns
  | missingSourceKey
  | missingTargetKey
deriving DecidableEq

/-- The `build_graph` loop of `export_plotly_dashboard.py` /
`run_plotly_network.py` / `export_vis_draggable.py`: for each row it first
evaluates `str(r["source"])` then `str(r["target"])` — a missing column
raises `KeyError` at that point, before any edge is added. -/
def buildRows (hasS hasT : Bool) (th : ℚ) :
    List RawRow → GraphS String → Except InputError (GraphS String)
  | [], G => .ok G
  | r :: rs, G =>
    if hasS then
      if hasT then buildRows hasS hasT th rs (addRecord G r th)
      else .error .missingTargetKey
    else .error .missingSourceKey

/-- `build_graph(df_edges, threshold)` of the export scripts. -/
def build_graph (t : RawTable) (th : ℚ) : Except InputError (GraphS String) :=
  buildRows t.hasSource t.hasTarget th t.rows ⟨[]⟩

/-- `df["weight"] = 1.0` column default. -/
def defaultWeights (rows : List RawRow) : List RawRow :=
  rows.map (fun r => { r with weight := some 1 })

/-- `read_inputs` of the export scripts: no schema validation, only the
weight-column default. -/
def read_inputs (t : RawTable) : RawTable :=
  if t.hasWeight then t
  else { t with hasWeight := true, rows := defaultWeights t.rows }

/-- `read_data` of `run_cpm_visualize.py`: raises `ValueError` unless both
`source` and `target` columns are present, then applies the weight
default. -/
def read_data (t : RawTable) : Except InputError RawTable :=
  if t.hasSource && t.hasTarget then .ok (read_inputs t)
  else .error .missingRequiredColumns

/-- Aggregated weight stored for the unordered pair `(u, v)` (sum over the
matching entries; the builder keeps at most one such entry). -/
def weightSum {α : Type} [DecidableEq α] (G : GraphS α) (u v : α) : ℚ :=
  ((G.entries.filter (fun e => sameUPair e.1 (u, v))).map (fun e => e.2)).sum

/-- Specification-side sum: total weight of exactly those raw records that
connect the unordered pair `(u, v)` and whose own weight passes the
threshold. -/
def sumSurvMatching (rows : List RawRow) (u v : String) (th : ℚ) : ℚ :=
  ((rows.filter (fun r => sameUPair (r.source, r.target) (u, v) && survives r.weight th)).map
    (fun r => weightValue r.weight)).sum

/-- Node list of the built graph: endpoints of its edge entries in
insertion order (as `networkx` stores nodes in a dict). -/
def nodeList {α : Type} [DecidableEq α] (G : GraphS α) : List α :=
  newKeys [] (G.entries.flatMap (fun e => [e.1.1, e.1.2]))


/-- `build_threshold_graph(df_edges, threshold)` of `run_cpm_visualize.py`:
the same loop as `build_graph` of the export scripts. -/
def build_threshold_graph : RawTable → ℚ → Except InputError (GraphS String) :=
  build_graph

/-- Adjacency as used by `networkx.find_cliques`: neighbours excluding the
node itself (self-loops are ignored for clique enumeration). -/
def adjacentB {α : Type} [DecidableEq α] (G : GraphS α) (u v : α) : Bool :=
  !decide (u = v) && hasEdgeB G u v

/-- All ordered pairs of distinct positions in the list are adjacent. -/
def pairwiseAdj {α : Type} [DecidableEq α] (G : GraphS α) : List α → Bool
  | [] => true
  | a :: l => l.all (fun b => adjacentB G a b) && pairwiseAdj G l

/-- `x` can extend the clique `s`: it is a new node adjacent to every
member. -/
def canJoin {α : Type} [DecidableEq α] (G : GraphS α) (s : List α) (x : α) : Bool :=
  !decide (x ∈ s) && s.all (fun u => adjacentB G x u)

/-- No graph node can extend the clique. -/
def isMaximalB {α : Type} [DecidableEq α] (G : GraphS α) (s : List α) : Bool :=
  (nodeList G).all (fun x => !canJoin G s x)

/-- `networkx.find_cliques(G)`: all maximal cliques, here enumerated as the
sublists of the node list that are nonempty, pairwise adjacent and
non-extendable. -/
def find_cliques {α : Type} [DecidableEq α] (G : GraphS α) : List (List α) :=
  (nodeList G).sublists.filter
    (fun s => !s.isEmpty && pairwiseAdj G s && isMaximalB G s)

/-- `cliques = [frozenset(c) for c in cliques if len(c) >= k]` of
`networkx.k_clique_communities`. -/
def bigCliques {α : Type} [DecidableEq α] (G : GraphS α) (k : Nat) : List (List α) :=
  (find_cliques G).filter (fun c => decide (k ≤ c.length))

/-- Size of the intersection of two cliques (the first being duplicate-free). -/
def interCard {α : Type} [DecidableEq α] (c d : List α) : Nat :=
  (c.filter (fun x => decide (x ∈ d))).length

/-- Percolation adjacency: two distinct retained cliques sharing at least
`k - 1` nodes. -/
def cliqueAdjB {α : Type} [DecidableEq α] (k : Nat) (c d : List α) : Bool :=
  !decide (c = d) && decide (k - 1 ≤ interCard c d)

/-- One step of incremental connected components of the percolation graph:
merge every component adjacent to the incoming clique `c` together with
`c` into a single component. -/
def percStep {α : Type} [DecidableEq α] (k : Nat)
    (comps : List (List (List α))) (c : List α) : List (List (List α)) :=
  ((comps.filter (fun comp => comp.any (fun d => cliqueAdjB k d c))).flatMap id ++ [c]) ::
    comps.filter (fun comp => !comp.any (fun d => cliqueAdjB k d c))

/-- Connected components of the percolation graph over the retained
cliques. -/
def percComponents {α : Type} [DecidableEq α] (k : Nat) (cs : List (List α)) :
    List (List (List α)) :=
  cs.foldl (percStep k) []

/-- `networkx.algorithms.community.k_clique_communities(G, k)`: one
community per connected component of the percolation graph, flattened to
the union of its member cliques' nodes. -/
def k_clique_communities {α : Type} [DecidableEq α] (G : GraphS α) (k : Nat) :
    List (List α) :=
  (percComponents k (bigCliques G k)).map (fun comp => newKeys [] (comp.flatMap id))

/-- `detect_communities(G, k)` of the export scripts. -/
def detect_communities {α : Type} [DecidableEq α] (G : GraphS α) (k : Nat) :
    List (List α) :=
  k_clique_communities G k

/-- Specification-side notion of a maximal clique of the graph. -/
def MaximalClique {α : Type} [DecidableEq α] (G : GraphS α) (c : List α) : Prop :=
  c ≠ [] ∧ List.Pairwise (fun u v => adjacentB G u v = true) c ∧
    ∀ x ∈ nodeList G, x ∉ c → ¬(∀ u ∈ c, adjacentB G x u = true)

/-- A 9-node graph (nodes `0..8`): the triangle `{0,1,2}` plus a chain of
triangles `{0,3,4}, {3,4,5}, {4,5,6}, {5,6,7}, {6,7,8}, {1,5,6}, {2,7,8}`
touching each of `0`, `1`, `2` in exactly one node. -/
def cpmNestedGraph : GraphS Nat :=
  ⟨[((0, 1), 1), ((0, 2), 1), ((1, 2), 1),
    ((0, 3), 1), ((0, 4), 1), ((3, 4), 1),
    ((4, 5), 1), ((3, 5), 1),
    ((5, 6), 1), ((4, 6), 1),
    ((6, 7), 1), ((5, 7), 1),
    ((7, 8), 1), ((6, 8), 1),
    ((1, 5), 1), ((1, 6), 1),
    ((2, 7), 1), ((2, 8), 1)]⟩

/-- The weighted triangle graph of the spec's end-to-end example
(`A-B`, `B-C`, `A-C`, all weight 5). -/
def triangleGraph : GraphS Nat :=
  ⟨[((0, 1), 5), ((1, 2), 5), ((0, 2), 5)]⟩

/-- A node of the exported view model as the dashboard client sees it. -/
structure VMNode where
  id : String
  label : String
  faction : String
  communities : List Nat
deriving DecidableEq

/-- The per-node visibility test of `applyFilters` in
`export_plotly_dashboard.py`'s HTML template. -/
def nodeVisibleDash (activeFactions : List String) (activeComms : List Nat)
    (n : VMNode) : Bool :=
  if !activeFactions.isEmpty && !decide (n.faction ∈ activeFactions) then false
  else if !activeComms.isEmpty then
    if n.communities.isEmpty then false
    else !(n.communities.filter (fun x => decide (x ∈ activeComms))).isEmpty
  else true

/-- `applyFilters` of the dashboard client: ids of the nodes kept
visible. -/
def applyFilters (nodes : List VMNode) (activeFactions : List String)
    (activeComms : List Nat) : List String :=
  (nodes.filter (fun n => nodeVisibleDash activeFactions activeComms n)).map
    (fun n => n.id)

/-- The per-node visibility test of `applyFilters` in
`export_vis_draggable.py`'s template (community ids are compared as
strings there). -/
def nodeVisibleVis (activeFactions : List String) (activeComms : List String)
    (n : VMNode) : Bool :=
  if !activeFactions.isEmpty && !decide (n.faction ∈ activeFactions) then false
  else if !activeComms.isEmpty then
    if n.communities.isEmpty then false
    else n.communities.any (fun x => decide (toString x ∈ activeComms))
  else true

/-- Lower-casing as applied by `.toLowerCase()`, character by character. -/
def lowerStr (s : String) : String := String.mk (s.data.map Char.toLower)

/-- Does the text start with the pattern? -/
def startsWithSeg : List Char → List Char → Bool
  | [], _ => true
  | _ :: _, [] => false
  | p :: ps, c :: cs => decide (p = c) && startsWithSeg ps cs

/-- Does the text contain the pattern as a contiguous run
(`text.indexOf(pat) >= 0`)? -/
def containsSeg (pat : List Char) : List Char → Bool
  | [] => pat.isEmpty
  | c :: rest => startsWithSeg pat (c :: rest) || containsSeg pat rest

/-- `n.label.toLowerCase().indexOf(q) >= 0` with `q` already lower-cased:
case-insensitive substring match of the query against the display label. -/
def labelMatches (q : String) (lbl : String) : Bool :=
  containsSeg (lowerStr q).data (lowerStr lbl).data

/-- An edge of the exported view model. -/
structure DEdge where
  source : String
  target : String
  weight : ℚ
deriving DecidableEq

/-- Outcome of the dashboard search handler. -/
inductive DashSearchOutcome
  | resetFilters
  | reveal (ids : List String)
  | alertNoMatch
deriving DecidableEq

/-- `Set.add`: append if not already present. -/
def addIfAbsent {α : Type} [DecidableEq α] (l : List α) (x : α) : List α :=
  if x ∈ l then l else l ++ [x]

/-- `new Set(ids)` in insertion order. -/
def setOfList {α : Type} [DecidableEq α] (l : List α) : List α :=
  l.foldl addIfAbsent []

/-- One edge's contribution in the neighbour-closure loop of the dashboard
search handler: add the opposite endpoint of any matched endpoint. -/
def neighborStep (ids : List String) (acc : List String) (e : DEdge) : List String :=
  let acc1 := if e.source ∈ ids then addIfAbsent acc e.target else acc
  if e.target ∈ ids then addIfAbsent acc1 e.source else acc1

/-- The neighbour-closure loop of the dashboard search handler: start from
the matched ids and add, for each edge, the opposite endpoint of any
matched endpoint. -/
def neighborClose (ids : List String) (edges : List DEdge) : List String :=
  edges.foldl (neighborStep ids) (setOfList ids)

/-- The search handler of `export_plotly_dashboard.py`'s template (query
given after `.trim().toLowerCase()` is modelled by `labelMatches`
lower-casing both sides). -/
def searchHandler (nodes : List VMNode) (edges : List DEdge) (q : String) :
    DashSearchOutcome :=
  if q = "" then .resetFilters
  else
    let found := nodes.filter (fun n => labelMatches q n.label)
    let ids := found.map (fun n => n.id)
    if ids.isEmpty then .alertNoMatch else .reveal (neighborClose ids edges)

/-- A node of the vis-network client, with its visibility flag. -/
structure VisNode where
  id : String
  label : String
  hidden : Bool
deriving DecidableEq

/-- Outcome of the vis-network search handler. -/
inductive VisSearchOutcome
  | noop
  | alertNoNode
  | focusFirst (id : String)
deriving DecidableEq

/-- The search handler of `export_vis_draggable.py`'s template: on a match
it focuses and temporarily recolors `found[0]` only; it never touches any
node's `hidden` flag. -/
def visSearch (nodesData : List VisNode) (q : String) :
    VisSearchOutcome × List VisNode :=
  if q = "" then (.noop, nodesData)
  else
    match nodesData.filter (fun n => labelMatches q n.label) with
    | [] => (.alertNoNode, nodesData)
    | n :: _ => (.focusFirst n.id, nodesData)

/-- Ids of the currently visible nodes of the vis client. -/
def visVisibleIds (nodesData : List VisNode) : List String :=
  (nodesData.filter (fun n => !n.hidden)).map (fun n => n.id)

/-- Two visible, non-adjacent nodes of the vis client: `X` labelled `x`
and `Y` labelled `y`. -/
def searchVisNodes : List VisNode := [⟨"X", "x", false⟩, ⟨"Y", "y", false⟩]

/-- `Counter` update: increment the key's count in insertion order,
appending a fresh key at the end. -/
def incrCounter {α : Type} [DecidableEq α] : List (α × Nat) → α → List (α × Nat)
  | [], x => [(x, 1)]
  | (y, c) :: rest, x =>
    if y = x then (y, c + 1) :: rest else (y, c) :: incrCounter rest x

/-- `collections.Counter(l)`: counts keyed in first-occurrence order. -/
def counterOf {α : Type} [DecidableEq α] (l : List α) : List (α × Nat) :=
  l.foldl incrCounter []

/-- `Counter.most_common(1)[0]`: maximal count, ties resolved to the
earliest entry (Python's sort is stable and the counter is in
first-occurrence order). -/
def mc1 {α : Type} : List (α × Nat) → Option (α × Nat)
  | [] => none
  | (x, c) :: rest =>
    match mc1 rest with
    | none => some (x, c)
    | some (y, d) => if c < d then some (y, d) else some (x, c)

/-- The value picked by `Counter(l).most_common(1)[0][0]`. -/
def mostCommonVal (l : List String) : String :=
  match mc1 (counterOf l) with
  | some p => p.1
  | none => ""

/-- `faction_map` lookup: the dict is built by iterating the character
rows, so a duplicated name keeps the last row's faction. -/
def factionLookup (chars : List (String × String)) (n : String) : Option String :=
  (chars.reverse.find? (fun r => decide (r.1 = n))).map (fun r => r.2)

/-- `[faction_map.get(n, "") for n in comm if n in faction_map]`. -/
def communityFactions (chars : List (String × String)) (comm : List String) :
    List String :=
  comm.filterMap (fun n => factionLookup chars n)

/-- `f"{v} (size={n})"`. -/
def sizeLabel (v : String) (n : Nat) : String :=
  v ++ " (size=" ++ toString n ++ ")"

/-- The label of one community in `get_community_label_map` /
`community_labels`: majority faction if any member is in the character
table, otherwise the synthetic `c{cid} (size=N)` fallback. -/
def get_community_label (chars : List (String × String)) (cid : Nat)
    (comm : List String) : String :=
  if (communityFactions chars comm).isEmpty then
    sizeLabel ("c" ++ toString cid) comm.length
  else sizeLabel (mostCommonVal (communityFactions chars comm)) comm.length

/-- `get_community_label_map(communities, characters_df)` /
`community_labels(communities, chars_df)`. -/
def get_community_label_map (communities : List (List String))
    (chars : List (String × String)) : List (Nat × String) :=
  communities.enum.map (fun p => (p.1, get_community_label chars p.1 p.2))

/-- Index of the first occurrence of `x` in `l` (length of `l` when
absent). -/
def firstIdx {α : Type} [DecidableEq α] : List α → α → Nat
  | [], _ => 0
  | a :: l, x => if a = x then 0 else firstIdx l x + 1

/-- A linear congruential pseudo-random step, standing in for
`numpy.random.RandomState`. -/
def lcgNext (s : Nat) : Nat := (s * 1103515245 + 12345) % 4294967296

/-- The `i`-th draw of the seeded generator. -/
def lcgStream (seed : Nat) : Nat → Nat
  | 0 => lcgNext seed
  | n + 1 => lcgNext (lcgStream seed n)

/-- A pseudo-random rational in `[0, 1)` from the seeded stream. -/
def randUnit (seed i : Nat) : ℚ := (lcgStream seed i % 1000 : ℚ) / 1000

/-- Modelled from the spec: the seeded initial placement of
`networkx.spring_layout` — every node gets a pseudo-random 2-D position
drawn from a generator freshly seeded with the given seed (the library
source is outside this repository; the spec requires only that the layout
be a deterministic function of graph, seed and parameters). -/
def initPositions {α : Type} [DecidableEq α] (G : GraphS α) (seed : Nat) :
    List (α × ℚ × ℚ) :=
  (nodeList G).enum.map
    (fun p => (p.2, (randUnit seed (2 * p.1), randUnit seed (2 * p.1 + 1))))

/-- Modelled from the spec: one force-directed iteration — each node moves
a `kp`-fraction of the way toward the centroid of its neighbours. -/
def springStep {α : Type} [DecidableEq α] (G : GraphS α) (kp : ℚ)
    (pl : List (α × ℚ × ℚ)) : List (α × ℚ × ℚ) :=
  pl.map (fun np =>
    let nbrs := pl.filter (fun mp => adjacentB G np.1 mp.1)
    if nbrs.isEmpty then np
    else
      (np.1,
        (np.2.1 + kp * ((nbrs.map (fun mp => mp.2.1)).sum / nbrs.length - np.2.1),
         np.2.2 + kp * ((nbrs.map (fun mp => mp.2.2)).sum / nbrs.length - np.2.2))))

/-- Modelled from the spec: `networkx.spring_layout(G, seed=seed, k=kp,
iterations=iters)` — a pure, deterministic function of its arguments. -/
def spring_layout {α : Type} [DecidableEq α] (G : GraphS α) (seed : Nat)
    (kp : ℚ) (iters : Nat) : List (α × ℚ × ℚ) :=
  (springStep G kp)^[iters] (initPositions G seed)

/-- `build_positions(G)` of `export_plotly_dashboard.py` (and the `pos =`
call of `make_plotly_html`): `nx.spring_layout(G, seed=42, k=0.45,
iterations=200)`. -/
def build_positions {α : Type} [DecidableEq α] (G : GraphS α) :
    List (α × ℚ × ℚ) :=
  spring_layout G 42 (9 / 20) 200

/-- One run of the layout inside a process whose ambient random state is
`procRng`: `spring_layout` is called with the literal seed 42, so the
ambient state is neither consulted nor advanced. -/
def layout_run {α : Type} [DecidableEq α] (G : GraphS α) (procRng : Nat) :
    List (α × ℚ × ℚ) × Nat :=
  (build_positions G, procRng)

/-- The dashboard script's pipeline through community detection:
`read_inputs` (no schema check), `build_graph`, `detect_communities`. -/
def dashboard_pipeline (t : RawTable) (th : ℚ) (k : Nat) :
    Except InputError (GraphS String × List (List String)) :=
  match build_graph (read_inputs t) th with
  | .ok G => .ok (G, detect_communities G k)
  | .error e => .error e

/-- The `run_cpm_visualize.py` pipeline through graph construction:
`read_data` (validating), then `build_threshold_graph`. -/
def cpm_pipeline (t : RawTable) (th : ℚ) : Except InputError (GraphS String) :=
  match read_data t with
  | .ok t2 => build_threshold_graph t2 th
  | .error e => .error e

/-- An edge input whose `source` column is missing and which carries no
records. -/
def missingSourceTable : RawTable := ⟨false, true, true, []⟩

/-- An edge input with a `weight` column whose single record has an empty
weight cell. -/
def emptyWeightTable : RawTable := ⟨true, true, true, [⟨"A", "B", none⟩]⟩

/-- The spec's second end-to-end example: a single record `A-B weight=2`. -/
def abLowWeightRows : List RawRow := [⟨"A", "B", some 2⟩]

/-- A single surviving self-loop record. -/
def selfLoopRows : List RawRow := [⟨"A", "A", some 5⟩]

/-- A concrete character table for label evaluation. -/
def labelChars : List (String × String) :=
  [("A", "Chola"), ("B", "Chola"), ("C", "Pandya")]

/-- An edge input whose `source` column is missing but which has one
record. -/
def missingSourceRowTable : RawTable := ⟨false, true, true, [⟨"A", "B", some 1⟩]⟩

/-- An edge input with no `weight` column at all. -/
def noWeightColTable : RawTable := ⟨true, true, false, [⟨"A", "B", some 2⟩]⟩

-- (theorems follow)

theorem mem_newKeys {α : Type} [DecidableEq α] (seen : List α) (l : List α)
    (x : α) : x ∈ newKeys seen l ↔ x ∈ l ∧ x ∉ seen := by
  induction l generalizing seen with
  | nil => simp [newKeys]
  | cons a l ih =>
    by_cases ha : a ∈ seen
    · simp only [newKeys, if_pos ha, ih, List.mem_cons]
      constructor
      · rintro ⟨hx, hs⟩; exact ⟨Or.inr hx, hs⟩
      · rintro ⟨hx | hx, hs⟩
        · exact absurd (hx ▸ ha) hs
        · exact ⟨hx, hs⟩
    · simp only [newKeys, if_neg ha, List.mem_cons, ih]
      constructor
      · rintro (rfl | ⟨hx, hs⟩)
        · exact ⟨Or.inl rfl, ha⟩
        · exact ⟨Or.inr hx, fun h => hs (Or.inr h)⟩
      · rintro ⟨rfl | hx, hs⟩
        · exact Or.inl rfl
        · by_cases hxa : x = a
          · exact Or.inl hxa
          · exact Or.inr ⟨hx, by simp [hxa, hs]⟩

theorem nodup_newKeys {α : Type} [DecidableEq α] (seen : List α)
    (l : List α) : (newKeys seen l).Nodup := by
  induction l generalizing seen with
  | nil => simp [newKeys]
  | cons a l ih =>
    by_cases ha : a ∈ seen
    · simpa [newKeys, if_pos ha] using ih seen
    · simp only [newKeys, if_neg ha]
      refine List.nodup_cons.mpr ⟨?_, ih (a :: seen)⟩
      intro hmem
      exact ((mem_newKeys _ _ _).mp hmem).2 (List.mem_cons_self a seen)

theorem sameUPair_iff {α : Type} [DecidableEq α] (p q : α × α) :
    sameUPair p q = true ↔ (p.1 = q.1 ∧ p.2 = q.2) ∨ (p.1 = q.2 ∧ p.2 = q.1) := by
  simp [sameUPair]

theorem sameUPair_refl {α : Type} [DecidableEq α] (p : α × α) :
    sameUPair p p = true := by
  simp [sameUPair]

theorem sameUPair_swap {α : Type} [DecidableEq α] (a b : α) (r : α × α) :
    sameUPair (a, b) r = sameUPair (b, a) r := by
  rw [Bool.eq_iff_iff, sameUPair_iff, sameUPair_iff]
  constructor <;> rintro (⟨h1, h2⟩ | ⟨h1, h2⟩) <;> simp_all

/-- Matching the same unordered pair is a congruence: if `p` and `q` match
as unordered pairs then they match exactly the same pairs. -/
theorem sameUPair_congr {α : Type} [DecidableEq α] {p q : α × α}
    (h : sameUPair p q = true) (r : α × α) :
    sameUPair p r = sameUPair q r := by
  rcases (sameUPair_iff p q).mp h with ⟨h1, h2⟩ | ⟨h1, h2⟩
  · have : p = q := Prod.ext h1 h2
    rw [this]
  · have : p = (q.2, q.1) := Prod.ext h1 h2
    rw [this, sameUPair_swap]

theorem weightSum_cons {α : Type} [DecidableEq α] (e : (α × α) × ℚ)
    (es : List ((α × α) × ℚ)) (x y : α) :
    weightSum ⟨e :: es⟩ x y =
      (if sameUPair e.1 (x, y) = true then e.2 else 0) + weightSum ⟨es⟩ x y := by
  by_cases h : sameUPair e.1 (x, y) = true <;>
    simp [weightSum, List.filter_cons, h]

theorem weightSum_bump {α : Type} [DecidableEq α] (es : List ((α × α) × ℚ))
    (u v : α) (w : ℚ) (x y : α)
    (h : es.any (fun e => sameUPair e.1 (u, v)) = true) :
    weightSum ⟨bumpWeight es u v w⟩ x y =
      weightSum ⟨es⟩ x y + (if sameUPair (u, v) (x, y) = true then w else 0) := by
  induction es with
  | nil => simp at h
  | cons e es ih =>
    by_cases hm : sameUPair e.1 (u, v) = true
    · have hcong := sameUPair_congr hm (x, y)
      simp only [bumpWeight, if_pos hm]
      rw [weightSum_cons, weightSum_cons, hcong]
      by_cases hxy : sameUPair (u, v) (x, y) = true
      · simp [hxy]; ring
      · simp [hxy]
    · simp only [bumpWeight, if_neg hm]
      rw [weightSum_cons, weightSum_cons]
      have h' : es.any (fun e => sameUPair e.1 (u, v)) = true := by
        simp only [List.any_cons, Bool.or_eq_true] at h
        rcases h with h | h
        · exact absurd h hm
        · exact h
      rw [ih h']
      ring

theorem weightSum_add_edge_agg {α : Type} [DecidableEq α] (G : GraphS α)
    (u v : α) (w : ℚ) (x y : α) :
    weightSum (add_edge_agg G u v w) x y =
      weightSum G x y + (if sameUPair (u, v) (x, y) = true then w else 0) := by
  by_cases h : hasEdgeB G u v = true
  · rw [add_edge_agg, if_pos h]
    exact weightSum_bump G.entries u v w x y h
  · rw [add_edge_agg, if_neg h]
    by_cases hxy : sameUPair (u, v) (x, y) = true <;>
      simp [weightSum, List.filter_append, List.filter_cons, hxy]

theorem weightSum_addRecord (G : GraphS String) (r : RawRow) (th : ℚ)
    (x y : String) :
    weightSum (addRecord G r th) x y =
      weightSum G x y +
        (if (sameUPair (r.source, r.target) (x, y) && survives r.weight th) = true
         then weightValue r.weight else 0) := by
  by_cases hs : survives r.weight th = true
  · rw [addRecord, if_pos hs, weightSum_add_edge_agg]
    simp [hs]
  · rw [addRecord, if_neg hs]
    simp [hs, Bool.and_eq_true]

theorem sumSurvMatching_cons (r : RawRow) (rows : List RawRow)
    (x y : String) (th : ℚ) :
    sumSurvMatching (r :: rows) x y th =
      (if (sameUPair (r.source, r.target) (x, y) && survives r.weight th) = true
       then weightValue r.weight else 0) + sumSurvMatching rows x y th := by
  by_cases h : (sameUPair (r.source, r.target) (x, y) && survives r.weight th) = true <;>
    simp [sumSurvMatching, List.filter_cons, h]

theorem weightSum_buildFold (rows : List RawRow) (G : GraphS String)
    (th : ℚ) (x y : String) :
    weightSum (buildFold rows G th) x y =
      weightSum G x y + sumSurvMatching rows x y th := by
  induction rows generalizing G with
  | nil => simp [buildFold, sumSurvMatching]
  | cons r rows ih =>
    rw [buildFold, ih, weightSum_addRecord, sumSurvMatching_cons]
    ring

theorem buildRows_ok (rows : List RawRow) (G : GraphS String) (th : ℚ) :
    buildRows true true th rows G = .ok (buildFold rows G th) := by
  induction rows generalizing G with
  | nil => rfl
  | cons r rows ih => simp [buildRows, buildFold, ih]

/-- C1: For every ordered sequence of raw edge records and every numeric
threshold, the aggregated weight stored for each unordered node pair in the
graph built by the builder loop equals the sum of the weights of exactly
those raw records connecting that pair whose own weight is `>=` the
threshold (inclusive); records whose own weight is below the threshold (or
whose weight cell is empty, i.e. NaN) contribute nothing. -/
theorem graphBuilder_aggregates_per_record_threshold (rows : List RawRow)
    (th : ℚ) (u v : String) :
    weightSum (buildFold rows ⟨[]⟩ th) u v = sumSurvMatching rows u v th ∧
    build_graph ⟨true, true, true, rows⟩ th = .ok (buildFold rows ⟨[]⟩ th) := by
  constructor
  · rw [weightSum_buildFold]
    simp [weightSum]
  · exact buildRows_ok rows ⟨[]⟩ th

theorem mem_nodeList {α : Type} [DecidableEq α] (G : GraphS α) (x : α) :
    x ∈ nodeList G ↔ ∃ e ∈ G.entries, x = e.1.1 ∨ x = e.1.2 := by
  simp only [nodeList, mem_newKeys, List.mem_flatMap, List.mem_cons,
    List.not_mem_nil, or_false, List.not_mem_nil, not_false_iff, and_true]

theorem hasEdgeB_left_mem {α : Type} [DecidableEq α] {G : GraphS α} {u v : α}
    (h : hasEdgeB G u v = true) : u ∈ nodeList G := by
  rw [hasEdgeB, List.any_eq_true] at h
  obtain ⟨e, he, hp⟩ := h
  rcases (sameUPair_iff e.1 (u, v)).mp hp with ⟨h1, _⟩ | ⟨_, h2⟩
  · exact (mem_nodeList G u).mpr ⟨e, he, Or.inl h1.symm⟩
  · exact (mem_nodeList G u).mpr ⟨e, he, Or.inr h2.symm⟩

theorem hasEdgeB_right_mem {α : Type} [DecidableEq α] {G : GraphS α} {u v : α}
    (h : hasEdgeB G u v = true) : v ∈ nodeList G := by
  rw [hasEdgeB, List.any_eq_true] at h
  obtain ⟨e, he, hp⟩ := h
  rcases (sameUPair_iff e.1 (u, v)).mp hp with ⟨_, h2⟩ | ⟨h1, _⟩
  · exact (mem_nodeList G v).mpr ⟨e, he, Or.inr h2.symm⟩
  · exact (mem_nodeList G v).mpr ⟨e, he, Or.inl h1.symm⟩

theorem exists_fst_bump {α : Type} [DecidableEq α] (es : List ((α × α) × ℚ))
    (u v : α) (w : ℚ) (P : α × α → Prop) :
    (∃ e ∈ bumpWeight es u v w, P e.1) ↔ ∃ e ∈ es, P e.1 := by
  induction es with
  | nil => simp [bumpWeight]
  | cons e es ih =>
    by_cases h : sameUPair e.1 (u, v) = true
    · rw [bumpWeight, if_pos h, List.exists_mem_cons_iff, List.exists_mem_cons_iff]
    · rw [bumpWeight, if_neg h, List.exists_mem_cons_iff, List.exists_mem_cons_iff, ih]

theorem mem_nodeList_add_edge_agg {α : Type} [DecidableEq α] (G : GraphS α)
    (u v : α) (w : ℚ) (x : α) :
    x ∈ nodeList (add_edge_agg G u v w) ↔ x ∈ nodeList G ∨ x = u ∨ x = v := by
  by_cases h : hasEdgeB G u v = true
  · rw [add_edge_agg, if_pos h, mem_nodeList, mem_nodeList]
    rw [show (⟨bumpWeight G.entries u v w⟩ : GraphS α).entries = bumpWeight G.entries u v w from rfl]
    rw [exists_fst_bump G.entries u v w (fun p => x = p.1 ∨ x = p.2)]
    constructor
    · exact fun hx => Or.inl hx
    · rintro (hx | rfl | rfl)
      · exact hx
      · exact (mem_nodeList G x).mp (hasEdgeB_left_mem h)
      · exact (mem_nodeList G x).mp (hasEdgeB_right_mem h)
  · rw [add_edge_agg, if_neg h, mem_nodeList, mem_nodeList]
    rw [show (⟨G.entries ++ [((u, v), w)]⟩ : GraphS α).entries
        = G.entries ++ [((u, v), w)] from rfl]
    constructor
    · rintro ⟨e, he, hP⟩
      rcases List.mem_append.mp he with he' | he'
      · exact Or.inl ⟨e, he', hP⟩
      · rw [List.mem_singleton] at he'
        subst he'
        exact Or.inr hP
    · rintro (⟨e, he, hP⟩ | hx)
      · exact ⟨e, List.mem_append.mpr (Or.inl he), hP⟩
      · exact ⟨((u, v), w), List.mem_append.mpr (Or.inr (List.mem_singleton.mpr rfl)), hx⟩

theorem mem_nodeList_addRecord (G : GraphS String) (r : RawRow) (th : ℚ)
    (x : String) :
    x ∈ nodeList (addRecord G r th) ↔
      x ∈ nodeList G ∨
        (survives r.weight th = true ∧ (x = r.source ∨ x = r.target)) := by
  by_cases hs : survives r.weight th = true
  · rw [addRecord, if_pos hs, mem_nodeList_add_edge_agg]
    simp [hs]
  · rw [addRecord, if_neg hs]
    simp [hs]

theorem mem_nodeList_buildFold (rows : List RawRow) (G : GraphS String)
    (th : ℚ) (x : String) :
    x ∈ nodeList (buildFold rows G th) ↔
      x ∈ nodeList G ∨
        ∃ r ∈ rows, survives r.weight th = true ∧ (x = r.source ∨ x = r.target) := by
  induction rows generalizing G with
  | nil => simp [buildFold]
  | cons r rows ih =>
    rw [buildFold, ih, mem_nodeList_addRecord, List.exists_mem_cons_iff]
    exact or_assoc

theorem hasEdgeB_bump {α : Type} [DecidableEq α] (es : List ((α × α) × ℚ))
    (u v : α) (w : ℚ) (x y : α) :
    hasEdgeB ⟨bumpWeight es u v w⟩ x y = hasEdgeB ⟨es⟩ x y := by
  rw [Bool.eq_iff_iff, hasEdgeB, hasEdgeB, List.any_eq_true, List.any_eq_true]
  exact exists_fst_bump es u v w (fun p => sameUPair p (x, y) = true)

theorem hasEdgeB_add_edge_agg_mono {α : Type} [DecidableEq α] {G : GraphS α}
    {x y : α} (u v : α) (w : ℚ) (h : hasEdgeB G x y = true) :
    hasEdgeB (add_edge_agg G u v w) x y = true := by
  by_cases he : hasEdgeB G u v = true
  · rw [add_edge_agg, if_pos he, hasEdgeB_bump]
    exact h
  · rw [add_edge_agg, if_neg he]
    rw [hasEdgeB, List.any_eq_true] at h ⊢
    obtain ⟨e, he', hp⟩ := h
    exact ⟨e, List.mem_append.mpr (Or.inl he'), hp⟩

theorem hasEdgeB_add_edge_agg_self {α : Type} [DecidableEq α] (G : GraphS α)
    (u v : α) (w : ℚ) : hasEdgeB (add_edge_agg G u v w) u v = true := by
  by_cases he : hasEdgeB G u v = true
  · rw [add_edge_agg, if_pos he, hasEdgeB_bump]
    exact he
  · rw [add_edge_agg, if_neg he, hasEdgeB, List.any_eq_true]
    exact ⟨((u, v), w), List.mem_append.mpr (Or.inr (List.mem_singleton.mpr rfl)),
      sameUPair_refl (u, v)⟩

theorem hasEdgeB_addRecord_mono {G : GraphS String} {x y : String}
    (r : RawRow) (th : ℚ) (h : hasEdgeB G x y = true) :
    hasEdgeB (addRecord G r th) x y = true := by
  by_cases hs : survives r.weight th = true
  · rw [addRecord, if_pos hs]
    exact hasEdgeB_add_edge_agg_mono _ _ _ h
  · rw [addRecord, if_neg hs]
    exact h

theorem hasEdgeB_buildFold_mono (rows : List RawRow) {G : GraphS String}
    {x y : String} (th : ℚ) (h : hasEdgeB G x y = true) :
    hasEdgeB (buildFold rows G th) x y = true := by
  induction rows generalizing G with
  | nil => exact h
  | cons r rows ih => exact ih (hasEdgeB_addRecord_mono r th h)

theorem buildFold_append (l1 l2 : List RawRow) (G : GraphS String) (th : ℚ) :
    buildFold (l1 ++ l2) G th = buildFold l2 (buildFold l1 G th) th := by
  induction l1 generalizing G with
  | nil => rfl
  | cons r l1 ih => rw [List.cons_append, buildFold, buildFold, ih]

/-- C10: a raw record whose source equals its target (a self-loop) and
whose own weight meets the threshold is retained by the graph builder: the
built graph has the self-loop edge, the node is in the node set, and the
self-loop pair's aggregated weight is the sum of its surviving matching
records. -/
theorem selfLoop_records_retained (rows : List RawRow) (th : ℚ) (r : RawRow)
    (hr : r ∈ rows) (hself : r.source = r.target)
    (hs : survives r.weight th = true) :
    hasEdgeB (buildFold rows ⟨[]⟩ th) r.source r.source = true ∧
    r.source ∈ nodeList (buildFold rows ⟨[]⟩ th) ∧
    weightSum (buildFold rows ⟨[]⟩ th) r.source r.source =
      sumSurvMatching rows r.source r.source th := by
  refine ⟨?_, ?_, ?_⟩
  · obtain ⟨l1, l2, rfl⟩ := List.append_of_mem hr
    rw [buildFold_append, buildFold]
    refine hasEdgeB_buildFold_mono l2 th ?_
    have h1 : hasEdgeB (addRecord (buildFold l1 ⟨[]⟩ th) r th) r.source r.target = true := by
      rw [addRecord, if_pos hs]
      exact hasEdgeB_add_edge_agg_self _ _ _ _
    rw [← hself] at h1
    exact h1
  · exact (mem_nodeList_buildFold rows ⟨[]⟩ th r.source).mpr
      (Or.inr ⟨r, hr, hs, Or.inl rfl⟩)
  · rw [weightSum_buildFold]
    simp [weightSum]

theorem selfLoop_records_retained_witness :
    (⟨"A", "A", some 5⟩ : RawRow) ∈ selfLoopRows ∧
    ("A" : String) = "A" ∧
    survives (some 5) 4 = true ∧
    (hasEdgeB (buildFold selfLoopRows ⟨[]⟩ 4) "A" "A" = true ∧
      "A" ∈ nodeList (buildFold selfLoopRows ⟨[]⟩ 4) ∧
      weightSum (buildFold selfLoopRows ⟨[]⟩ 4) "A" "A" =
        sumSurvMatching selfLoopRows "A" "A" 4) :=
  ⟨by decide, rfl, by decide,
    selfLoop_records_retained selfLoopRows 4 ⟨"A", "A", some 5⟩ (by decide) rfl
      (by decide)⟩

/-- C3: the node set of the built graph is exactly the set of endpoints
appearing in at least one raw record surviving the threshold test; in
particular, for the single record `A-B weight=2` under threshold 4 the
built graph has zero nodes and zero edges, and CPM returns zero
communities for every `k ≥ 2`. -/
theorem builtGraph_node_set_exactly_surviving_endpoints :
    (∀ (rows : List RawRow) (th : ℚ) (x : String),
      x ∈ nodeList (buildFold rows ⟨[]⟩ th) ↔
        ∃ r ∈ rows, survives r.weight th = true ∧ (x = r.source ∨ x = r.target)) ∧
    build_graph ⟨true, true, true, abLowWeightRows⟩ 4 = .ok ⟨[]⟩ ∧
    nodeList (⟨[]⟩ : GraphS String) = [] ∧ (⟨[]⟩ : GraphS String).entries = [] ∧
    ∀ k : Nat, 2 ≤ k → k_clique_communities (⟨[]⟩ : GraphS String) k = [] := by
  refine ⟨?_, rfl, rfl, rfl, fun k _ => rfl⟩
  intro rows th x
  rw [mem_nodeList_buildFold]
  simp [nodeList, newKeys]

theorem builtGraph_node_set_witness :
    (2 ≤ 3 ∧ k_clique_communities (⟨[]⟩ : GraphS String) 3 = []) :=
  ⟨by norm_num,
    builtGraph_node_set_exactly_surviving_endpoints.2.2.2.2 3 (by norm_num)⟩

theorem pairwiseAdj_iff {α : Type} [DecidableEq α] (G : GraphS α)
    (s : List α) :
    pairwiseAdj G s = true ↔
      List.Pairwise (fun u v => adjacentB G u v = true) s := by
  induction s with
  | nil => simp [pairwiseAdj]
  | cons a l ih =>
    rw [pairwiseAdj, Bool.and_eq_true, List.all_eq_true, List.pairwise_cons, ih]

theorem nodup_nodeList {α : Type} [DecidableEq α] (G : GraphS α) :
    (nodeList G).Nodup :=
  nodup_newKeys _ _

theorem find_cliques_spec {α : Type} [DecidableEq α] {G : GraphS α}
    {s : List α} (h : s ∈ find_cliques G) : MaximalClique G s ∧ s.Nodup := by
  rw [find_cliques, List.mem_filter] at h
  obtain ⟨hsub, hpred⟩ := h
  rw [Bool.and_eq_true, Bool.and_eq_true] at hpred
  obtain ⟨⟨hne, hpw⟩, hmax⟩ := hpred
  have hnodup : s.Nodup :=
    (List.mem_sublists.mp hsub).nodup (nodup_nodeList G)
  refine ⟨⟨?_, (pairwiseAdj_iff G s).mp hpw, ?_⟩, hnodup⟩
  · intro hnil
    subst hnil
    simp at hne
  · intro x hx hxs hall
    have hx' := List.all_eq_true.mp hmax x hx
    rw [Bool.not_eq_true'] at hx'
    rw [canJoin, Bool.and_eq_false_iff] at hx'
    rcases hx' with hx' | hx'
    · rw [Bool.not_eq_false', decide_eq_true_iff] at hx'
      exact hxs hx'
    · rw [← Bool.not_eq_true, List.all_eq_true] at hx'
      exact hx' fun u hu => hall u hu

theorem bigCliques_spec {α : Type} [DecidableEq α] {G : GraphS α} {k : Nat}
    {s : List α} (h : s ∈ bigCliques G k) :
    MaximalClique G s ∧ s.Nodup ∧ k ≤ s.length := by
  rw [bigCliques, List.mem_filter, decide_eq_true_iff] at h
  obtain ⟨hc, hk⟩ := h
  obtain ⟨hm, hn⟩ := find_cliques_spec hc
  exact ⟨hm, hn, hk⟩

theorem foldl_percStep_mem {α : Type} [DecidableEq α] (k : Nat)
    (P : List α → Prop) :
    ∀ (cs : List (List α)) (acc : List (List (List α))),
      (∀ comp ∈ acc, comp ≠ [] ∧ ∀ d ∈ comp, P d) →
      (∀ c ∈ cs, P c) →
      ∀ comp ∈ List.foldl (percStep k) acc cs, comp ≠ [] ∧ ∀ d ∈ comp, P d := by
  intro cs
  induction cs with
  | nil => intro acc hacc _ comp hcomp; exact hacc comp hcomp
  | cons c cs ih =>
    intro acc hacc hcs comp hcomp
    rw [List.foldl_cons] at hcomp
    refine ih (percStep k acc c) ?_ (fun d hd => hcs d (List.mem_cons_of_mem c hd))
      comp hcomp
    intro comp' hcomp'
    rw [percStep, List.mem_cons] at hcomp'
    rcases hcomp' with rfl | hcomp'
    · constructor
      · simp
      · intro d hd
        rcases List.mem_append.mp hd with hd | hd
        · rw [List.mem_flatMap] at hd
          obtain ⟨comp2, hcomp2, hd2⟩ := hd
          rw [List.mem_filter] at hcomp2
          exact (hacc comp2 hcomp2.1).2 d hd2
        · rw [List.mem_singleton] at hd
          rw [hd]
          exact hcs c (List.mem_cons_self c cs)
    · rw [List.mem_filter] at hcomp'
      exact hacc comp' hcomp'.1

theorem nodup_length_le {α : Type} [DecidableEq α] {l1 l2 : List α}
    (h1 : l1.Nodup) (h2 : l2.Nodup) (hsub : l1 ⊆ l2) :
    l1.length ≤ l2.length := by
  rw [← List.toFinset_card_of_nodup h1, ← List.toFinset_card_of_nodup h2]
  exact Finset.card_le_card
    (fun x hx => List.mem_toFinset.mpr (hsub (List.mem_toFinset.mp hx)))

/-- C2 (amended): for every graph and every `k ≥ 2`, every community
returned by `detect_communities` has size `≥ k` and is the union of the
nodes of a nonempty collection of maximal cliques each of size `≥ k`; a
node may appear in zero, one, or multiple returned communities.  (The
original claim's clause that no returned community is a strict subset of
another is dropped: see the counterexample.) -/
theorem communities_size_and_union_of_max_cliques {α : Type} [DecidableEq α]
    (G : GraphS α) (k : Nat) (_hk : 2 ≤ k) (comm : List α)
    (h : comm ∈ detect_communities G k) :
    k ≤ comm.length ∧
      ∃ comp : List (List α), comp ≠ [] ∧
        (∀ c ∈ comp, MaximalClique G c ∧ k ≤ c.length) ∧
        comm = newKeys [] (comp.flatMap id) := by
  rw [detect_communities, k_clique_communities, List.mem_map] at h
  obtain ⟨comp, hcomp, rfl⟩ := h
  have hstruct := foldl_percStep_mem k (fun c => c ∈ bigCliques G k)
    (bigCliques G k) [] (by simp) (fun c hc => hc) comp hcomp
  obtain ⟨hne, hmem⟩ := hstruct
  obtain ⟨c, hc⟩ := List.exists_mem_of_ne_nil comp hne
  obtain ⟨hmax, hnodup, hlen⟩ := bigCliques_spec (hmem c hc)
  have hsub : c ⊆ newKeys [] (comp.flatMap id) := by
    intro x hx
    exact (mem_newKeys _ _ x).mpr
      ⟨List.mem_flatMap.mpr ⟨c, hc, hx⟩, List.not_mem_nil x⟩
  refine ⟨le_trans hlen (nodup_length_le hnodup (nodup_newKeys _ _) hsub), comp,
    hne, ?_, rfl⟩
  intro c' hc'
  obtain ⟨hmax', _, hlen'⟩ := bigCliques_spec (hmem c' hc')
  exact ⟨hmax', hlen'⟩

/-- C2 counterexample: on the 9-node graph `cpmNestedGraph` with `k = 3`
the detector returns two communities with one a strict subset of the
other, refuting the claim's clause that no returned community is a strict
subset of another returned community of the same run. -/
theorem communities_strict_subset_counterexample :
    2 ≤ 3 ∧
      ∃ c1 ∈ detect_communities cpmNestedGraph 3,
        ∃ c2 ∈ detect_communities cpmNestedGraph 3,
          c1.toFinset ⊂ c2.toFinset :=
  ⟨by norm_num, by decide⟩

theorem communities_size_witness :
    2 ≤ 3 ∧ [0, 1, 2] ∈ detect_communities triangleGraph 3 ∧
      (3 ≤ [0, 1, 2].length ∧
        ∃ comp : List (List Nat), comp ≠ [] ∧
          (∀ c ∈ comp, MaximalClique triangleGraph c ∧ 3 ≤ c.length) ∧
          [0, 1, 2] = newKeys [] (comp.flatMap id)) :=
  ⟨by norm_num, by decide,
    communities_size_and_union_of_max_cliques triangleGraph 3 (by norm_num)
      [0, 1, 2] (by decide)⟩


theorem nodeVisibleDash_iff (aF : List String) (aC : List Nat) (n : VMNode) :
    nodeVisibleDash aF aC n = true ↔
      (aF = [] ∨ n.faction ∈ aF) ∧ (aC = [] ∨ ∃ c ∈ n.communities, c ∈ aC) := by
  by_cases hF : aF = [] <;> by_cases hM : n.faction ∈ aF <;>
    by_cases hC : aC = [] <;> by_cases hE : n.communities = [] <;>
    by_cases hI : ∃ c ∈ n.communities, c ∈ aC <;>
    simp_all [nodeVisibleDash, List.isEmpty_iff, List.isEmpty_eq_false,
      List.filter_eq_nil_iff]

theorem nodeVisibleVis_iff (aF : List String) (aC : List String) (n : VMNode) :
    nodeVisibleVis aF aC n = true ↔
      (aF = [] ∨ n.faction ∈ aF) ∧
        (aC = [] ∨ ∃ c ∈ n.communities, toString c ∈ aC) := by
  by_cases hF : aF = [] <;> by_cases hM : n.faction ∈ aF <;>
    by_cases hC : aC = [] <;> by_cases hE : n.communities = [] <;>
    by_cases hI : ∃ c ∈ n.communities, toString c ∈ aC <;>
    simp_all [nodeVisibleVis, List.isEmpty_iff, List.isEmpty_eq_false,
      List.any_eq_true]

/-- C4: both clients' filter functions mark a node visible iff (the active
category set is empty, or the node's category is a member of it) AND (the
active community set is empty, or the node's community-membership list
intersects it): AND between facets, OR within a facet.  (The vis client
compares community ids as strings.) -/
theorem filter_semantics_and_or :
    (∀ (aF : List String) (aC : List Nat) (n : VMNode),
      nodeVisibleDash aF aC n = true ↔
        (aF = [] ∨ n.faction ∈ aF) ∧ (aC = [] ∨ ∃ c ∈ n.communities, c ∈ aC)) ∧
    (∀ (aF : List String) (aC : List String) (n : VMNode),
      nodeVisibleVis aF aC n = true ↔
        (aF = [] ∨ n.faction ∈ aF) ∧
          (aC = [] ∨ ∃ c ∈ n.communities, toString c ∈ aC)) ∧
    ∀ (nodes : List VMNode) (aF : List String) (aC : List Nat) (x : String),
      x ∈ applyFilters nodes aF aC ↔
        ∃ n ∈ nodes, n.id = x ∧
          ((aF = [] ∨ n.faction ∈ aF) ∧ (aC = [] ∨ ∃ c ∈ n.communities, c ∈ aC)) := by
  refine ⟨nodeVisibleDash_iff, nodeVisibleVis_iff, ?_⟩
  intro nodes aF aC x
  rw [applyFilters, List.mem_map]
  constructor
  · rintro ⟨n, hn, rfl⟩
    rw [List.mem_filter] at hn
    exact ⟨n, hn.1, rfl, (nodeVisibleDash_iff aF aC n).mp hn.2⟩
  · rintro ⟨n, hn, rfl, hvis⟩
    exact ⟨n, List.mem_filter.mpr ⟨hn, (nodeVisibleDash_iff aF aC n).mpr hvis⟩, rfl⟩

theorem mem_addIfAbsent {α : Type} [DecidableEq α] (l : List α) (x y : α) :
    y ∈ addIfAbsent l x ↔ y ∈ l ∨ y = x := by
  rw [addIfAbsent]
  split_ifs with h
  · constructor
    · exact Or.inl
    · rintro (hy | rfl)
      · exact hy
      · exact h
  · simp [List.mem_append]

theorem mem_foldl_addIfAbsent {α : Type} [DecidableEq α] (l acc : List α)
    (y : α) : y ∈ l.foldl addIfAbsent acc ↔ y ∈ acc ∨ y ∈ l := by
  induction l generalizing acc with
  | nil => simp
  | cons a l ih =>
    rw [List.foldl_cons, ih, mem_addIfAbsent, List.mem_cons]
    tauto

theorem mem_setOfList {α : Type} [DecidableEq α] (l : List α) (y : α) :
    y ∈ setOfList l ↔ y ∈ l := by
  rw [setOfList, mem_foldl_addIfAbsent]
  simp

theorem mem_neighborStep (ids acc : List String) (e : DEdge) (y : String) :
    y ∈ neighborStep ids acc e ↔
      y ∈ acc ∨ (e.source ∈ ids ∧ y = e.target) ∨
        (e.target ∈ ids ∧ y = e.source) := by
  rw [neighborStep]
  split_ifs with h1 h2 h2 <;> simp [mem_addIfAbsent, h1, h2] <;> try tauto

theorem mem_foldl_neighborStep (edges : List DEdge) (ids acc : List String)
    (y : String) :
    y ∈ edges.foldl (neighborStep ids) acc ↔
      y ∈ acc ∨ ∃ e ∈ edges, (e.source ∈ ids ∧ y = e.target) ∨
        (e.target ∈ ids ∧ y = e.source) := by
  induction edges generalizing acc with
  | nil => simp
  | cons e edges ih =>
    rw [List.foldl_cons, ih, mem_neighborStep, List.exists_mem_cons_iff]
    exact or_assoc

theorem mem_neighborClose (ids : List String) (edges : List DEdge)
    (y : String) :
    y ∈ neighborClose ids edges ↔
      y ∈ ids ∨ ∃ e ∈ edges, (e.source ∈ ids ∧ y = e.target) ∨
        (e.target ∈ ids ∧ y = e.source) := by
  rw [neighborClose, mem_foldl_neighborStep, mem_setOfList]

/-- C5 (amended): the dashboard client's search reveals exactly the nodes
whose display label contains the query as a case-insensitive substring,
plus every node directly adjacent (one hop) to a match, and reports an
empty result as a non-throwing no-match alert; the vis-draggable client
likewise reports no match without throwing, but on a match it only focuses
and temporarily highlights the first matching node and leaves every node's
visibility state unchanged (it does not reveal exactly the matches plus
neighbours — see the counterexample). -/
theorem search_semantics (nodes : List VMNode) (edges : List DEdge)
    (visNodes : List VisNode) (q : String) (hq : q ≠ "") :
    ((∀ n ∈ nodes, labelMatches q n.label = false) →
      searchHandler nodes edges q = .alertNoMatch) ∧
    (∀ n₀ ∈ nodes, labelMatches q n₀.label = true →
      ∃ ids, searchHandler nodes edges q = .reveal ids ∧
        ∀ x, x ∈ ids ↔
          ((∃ n ∈ nodes, n.id = x ∧ labelMatches q n.label = true) ∨
            ∃ e ∈ edges,
              ((∃ n ∈ nodes, n.id = e.source ∧ labelMatches q n.label = true) ∧
                x = e.target) ∨
              ((∃ n ∈ nodes, n.id = e.target ∧ labelMatches q n.label = true) ∧
                x = e.source))) ∧
    ((∀ n ∈ visNodes, labelMatches q n.label = false) →
      visSearch visNodes q = (.alertNoNode, visNodes)) ∧
    (∀ (n₀ : VisNode) (rest : List VisNode),
      visNodes.filter (fun n => labelMatches q n.label) = n₀ :: rest →
      visSearch visNodes q = (.focusFirst n₀.id, visNodes)) := by
  refine ⟨?_, ?_, ?_, ?_⟩
  · intro hall
    rw [searchHandler, if_neg hq]
    have hfil : nodes.filter (fun n => labelMatches q n.label) = [] :=
      List.filter_eq_nil_iff.mpr fun n hn => by rw [hall n hn]; exact Bool.false_ne_true
    rw [hfil]
    rfl
  · intro n₀ hn₀ hm
    rw [searchHandler, if_neg hq]
    have hmem : n₀ ∈ nodes.filter (fun n => labelMatches q n.label) :=
      List.mem_filter.mpr ⟨hn₀, hm⟩
    have hne : ((nodes.filter (fun n => labelMatches q n.label)).map
        (fun n => n.id)).isEmpty = false := by
      rw [List.isEmpty_eq_false]
      intro hnil
      rw [List.map_eq_nil_iff] at hnil
      rw [hnil] at hmem
      exact List.not_mem_nil n₀ hmem
    rw [if_neg (by rw [hne]; exact Bool.false_ne_true)]
    refine ⟨_, rfl, ?_⟩
    have hid : ∀ y, (y ∈ (nodes.filter (fun n => labelMatches q n.label)).map
        (fun n => n.id)) ↔ ∃ n ∈ nodes, n.id = y ∧ labelMatches q n.label = true := by
      intro y
      rw [List.mem_map]
      constructor
      · rintro ⟨n, hn, rfl⟩
        rw [List.mem_filter] at hn
        exact ⟨n, hn.1, rfl, hn.2⟩
      · rintro ⟨n, hn, rfl, hmn⟩
        exact ⟨n, List.mem_filter.mpr ⟨hn, hmn⟩, rfl⟩
    intro x
    rw [mem_neighborClose]
    simp only [hid]
  · intro hall
    rw [visSearch, if_neg hq]
    have hfil : visNodes.filter (fun n => labelMatches q n.label) = [] :=
      List.filter_eq_nil_iff.mpr fun n hn => by rw [hall n hn]; exact Bool.false_ne_true
    rw [hfil]
  · intro n₀ rest hfil
    rw [visSearch, if_neg hq, hfil]

theorem search_semantics_witness :
    ("x" : String) ≠ "" ∧
    searchHandler [] [] "x" = .alertNoMatch ∧
    visSearch searchVisNodes "x" = (.focusFirst "X", searchVisNodes) :=
  ⟨by decide,
    (search_semantics [] [] searchVisNodes "x" (by decide)).1 (by intro n hn; cases hn),
    (search_semantics [] [] searchVisNodes "x" (by decide)).2.2.2 ⟨"X", "x", false⟩ []
      (by decide)⟩

/-- C5 counterexample: in the vis-draggable client, searching for `"x"`
with visible nodes `X` (label `x`) and `Y` (label `y`, with no edges at
all) leaves `Y` visible even though the only matching node is `X` and
there are no adjacent nodes: the set of revealed nodes is not exactly the
matches plus their one-hop neighbours. -/
theorem search_reveal_counterexample :
    visSearch searchVisNodes "x" = (.focusFirst "X", searchVisNodes) ∧
    visVisibleIds (visSearch searchVisNodes "x").2 = ["X", "Y"] ∧
    (∀ n ∈ searchVisNodes, (labelMatches "x" n.label = true ↔ n.id = "X")) ∧
    visVisibleIds (visSearch searchVisNodes "x").2 ≠ ["X"] := by
  refine ⟨by decide, by decide, by decide, by decide⟩

theorem newKeys_seen_congr {α : Type} [DecidableEq α] (l : List α) :
    ∀ (s1 s2 : List α), (∀ x, x ∈ s1 ↔ x ∈ s2) →
      newKeys s1 l = newKeys s2 l := by
  induction l with
  | nil => intro s1 s2 _; rfl
  | cons a l ih =>
    intro s1 s2 hs
    by_cases ha : a ∈ s1
    · rw [newKeys, if_pos ha, newKeys, if_pos ((hs a).mp ha)]
      exact ih s1 s2 hs
    · rw [newKeys, if_neg ha, newKeys, if_neg (fun h => ha ((hs a).mpr h))]
      rw [ih (a :: s1) (a :: s2) (by intro x; rw [List.mem_cons, List.mem_cons, hs x])]

theorem newKeys_append {α : Type} [DecidableEq α] (l1 l2 : List α) :
    ∀ seen : List α,
      newKeys seen (l1 ++ l2) = newKeys seen l1 ++ newKeys (l1 ++ seen) l2 := by
  induction l1 with
  | nil => intro seen; simp [newKeys]
  | cons a l1 ih =>
    intro seen
    by_cases ha : a ∈ seen
    · rw [List.cons_append, newKeys, if_pos ha, newKeys, if_pos ha, ih seen]
      congr 1
      refine newKeys_seen_congr l2 _ _ ?_
      intro x
      simp only [List.cons_append, List.mem_cons, List.mem_append]
      constructor
      · tauto
      · rintro (rfl | hx)
        · exact Or.inr ha
        · exact hx
    · rw [List.cons_append, newKeys, if_neg ha, newKeys, if_neg ha, ih (a :: seen),
        List.cons_append]
      congr 2
      refine newKeys_seen_congr l2 _ _ ?_
      intro x
      simp only [List.cons_append, List.mem_cons, List.mem_append]
      tauto

theorem incrCounter_map_mem {α : Type} [DecidableEq α] (f : α → Nat) (a : α) :
    ∀ ks : List α, ks.Nodup → a ∈ ks →
      incrCounter (ks.map fun x => (x, f x)) a =
        ks.map fun x => (x, f x + if x = a then 1 else 0) := by
  intro ks
  induction ks with
  | nil => intro _ ha; cases ha
  | cons y ks ih =>
    intro hnodup ha
    rw [List.map_cons, List.map_cons, incrCounter]
    by_cases hy : y = a
    · rw [if_pos hy, if_pos hy]
      congr 1
      refine (List.map_congr_left ?_).symm
      intro x hx
      have hxa : x ≠ a := by
        intro hxa
        have hyks : y ∈ ks := by rw [hy, ← hxa]; exact hx
        exact (List.nodup_cons.mp hnodup).1 hyks
      rw [if_neg hxa, Nat.add_zero]
    · rw [if_neg hy, if_neg hy, Nat.add_zero]
      have ha' : a ∈ ks := by
        rcases List.mem_cons.mp ha with h | h
        · exact absurd h.symm hy
        · exact h
      rw [ih (List.nodup_cons.mp hnodup).2 ha']

theorem incrCounter_map_new {α : Type} [DecidableEq α] (f : α → Nat) (a : α) :
    ∀ ks : List α, a ∉ ks →
      incrCounter (ks.map fun x => (x, f x)) a =
        (ks.map fun x => (x, f x)) ++ [(a, 1)] := by
  intro ks
  induction ks with
  | nil => intro _; rfl
  | cons y ks ih =>
    intro ha
    rw [List.map_cons, incrCounter]
    have hy : y ≠ a := fun h => ha (h ▸ List.mem_cons_self y ks)
    rw [if_neg hy, ih (fun h => ha (List.mem_cons_of_mem y h)), List.cons_append]

theorem count_append_singleton {α : Type} [DecidableEq α] (p : List α)
    (a x : α) : (p ++ [a]).count x = p.count x + if x = a then 1 else 0 := by
  rw [List.count_append]
  congr 1
  by_cases hxa : x = a
  · subst hxa
    simp
  · rw [if_neg hxa]
    rw [List.count_eq_zero]
    intro hx
    rw [List.mem_singleton] at hx
    exact hxa hx

theorem counterOf_general {α : Type} [DecidableEq α] (l : List α) :
    ∀ p : List α,
      List.foldl incrCounter ((newKeys [] p).map fun x => (x, p.count x)) l =
        (newKeys [] (p ++ l)).map fun x => (x, (p ++ l).count x) := by
  induction l with
  | nil => intro p; rw [List.foldl_nil, List.append_nil]
  | cons a l ih =>
    intro p
    rw [List.foldl_cons]
    have hkeys : ∀ x, x ∈ newKeys ([] : List α) p ↔ x ∈ p := by
      intro x
      rw [mem_newKeys]
      simp
    have hstep : incrCounter ((newKeys [] p).map fun x => (x, p.count x)) a =
        (newKeys [] (p ++ [a])).map fun x => (x, (p ++ [a]).count x) := by
      by_cases ha : a ∈ p
      · have hmem : a ∈ newKeys ([] : List α) p := (hkeys a).mpr ha
        rw [incrCounter_map_mem (fun x => p.count x) a _ (nodup_newKeys _ _) hmem]
        have hsame : newKeys ([] : List α) (p ++ [a]) = newKeys ([] : List α) p := by
          rw [newKeys_append]
          have : newKeys (p ++ ([] : List α)) [a] = [] := by
            rw [newKeys, if_pos (by simpa using ha)]
            rfl
          rw [this, List.append_nil]
        rw [hsame]
        refine List.map_congr_left ?_
        intro x _
        rw [count_append_singleton]
      · have hmem : a ∉ newKeys ([] : List α) p := fun h => ha ((hkeys a).mp h)
        rw [incrCounter_map_new (fun x => p.count x) a _ hmem]
        have hsame : newKeys ([] : List α) (p ++ [a]) =
            newKeys ([] : List α) p ++ [a] := by
          rw [newKeys_append]
          congr 1
          rw [newKeys, if_neg (by simpa using ha)]
          rfl
        rw [hsame, List.map_append]
        congr 1
        · refine List.map_congr_left ?_
          intro x hx
          have hxp : x ∈ p := (hkeys x).mp hx
          have hxa : x ≠ a := fun h => ha (h ▸ hxp)
          rw [count_append_singleton, if_neg hxa, Nat.add_zero]
        · rw [List.map_singleton, count_append_singleton, if_pos rfl,
            List.count_eq_zero.mpr ha]
    rw [hstep, ih (p ++ [a]), List.append_assoc, List.singleton_append]

theorem counterOf_eq {α : Type} [DecidableEq α] (l : List α) :
    counterOf l = (newKeys [] l).map fun x => (x, l.count x) := by
  have h := counterOf_general l []
  rw [List.nil_append] at h
  rw [counterOf]
  rw [show newKeys ([] : List α) [] = [] from rfl] at h
  rw [List.map_nil] at h
  exact h

theorem mc1_eq_none {α : Type} (cnt : List (α × Nat)) :
    mc1 cnt = none ↔ cnt = [] := by
  cases cnt with
  | nil => simp [mc1]
  | cons p rest =>
    obtain ⟨x, c⟩ := p
    constructor
    · intro h
      exfalso
      rw [mc1] at h
      rcases hrest : mc1 rest with _ | ⟨y, d⟩ <;> rw [hrest] at h <;> dsimp only at h
      · cases h
      · by_cases hlt : c < d
        · rw [if_pos hlt] at h
          cases h
        · rw [if_neg hlt] at h
          cases h
    · intro h
      cases h

theorem mc1_map_max {α : Type} [DecidableEq α] (f : α → Nat) :
    ∀ (ks : List α) (v : α) (c : Nat),
      mc1 (ks.map fun x => (x, f x)) = some (v, c) → ∀ u ∈ ks, f u ≤ c := by
  intro ks
  induction ks with
  | nil => intro v c h; cases h
  | cons y ks ih =>
    intro v c h u hu
    rw [List.map_cons, mc1] at h
    rcases hrest : mc1 (ks.map fun x => (x, f x)) with _ | ⟨y2, d⟩ <;>
      rw [hrest] at h <;> dsimp only at h
    · have hks : ks = [] := by
        have hmn := (mc1_eq_none (ks.map fun x => (x, f x))).mp hrest
        rwa [List.map_eq_nil_iff] at hmn
      subst hks
      rcases List.mem_singleton.mp hu with rfl
      cases h
      exact Nat.le_refl _
    · by_cases hlt : f y < d
      · rw [if_pos hlt] at h
        cases h
        rcases List.mem_cons.mp hu with rfl | hu'
        · exact Nat.le_of_lt hlt
        · exact ih v c hrest u hu'
      · rw [if_neg hlt] at h
        cases h
        rcases List.mem_cons.mp hu with rfl | hu'
        · exact Nat.le_refl _
        · exact Nat.le_trans (ih y2 d hrest u hu') (Nat.le_of_not_lt hlt)

theorem mc1_map_split {α : Type} [DecidableEq α] (f : α → Nat) :
    ∀ (ks : List α) (v : α) (c : Nat),
      mc1 (ks.map fun x => (x, f x)) = some (v, c) →
      ∃ ks1 ks2, ks = ks1 ++ v :: ks2 ∧ c = f v ∧ ∀ u ∈ ks1, f u < c := by
  intro ks
  induction ks with
  | nil => intro v c h; cases h
  | cons y ks ih =>
    intro v c h
    rw [List.map_cons, mc1] at h
    rcases hrest : mc1 (ks.map fun x => (x, f x)) with _ | ⟨y2, d⟩ <;>
      rw [hrest] at h <;> dsimp only at h
    · cases h
      exact ⟨[], ks, rfl, rfl, fun u hu => absurd hu (List.not_mem_nil u)⟩
    · by_cases hlt : f y < d
      · rw [if_pos hlt] at h
        cases h
        obtain ⟨ks1, ks2, hks, hc, hpre⟩ := ih v c hrest
        refine ⟨y :: ks1, ks2, by rw [hks, List.cons_append], hc, ?_⟩
        intro u hu
        rcases List.mem_cons.mp hu with rfl | hu'
        · rw [hc] at hlt ⊢
          exact hlt
        · exact hpre u hu'
      · rw [if_neg hlt] at h
        cases h
        exact ⟨[], ks, rfl, rfl, fun u hu => absurd hu (List.not_mem_nil u)⟩

theorem newKeys_split_firstIdx {α : Type} [DecidableEq α] (v u : α) :
    ∀ (l seen ks1 ks2 : List α),
      newKeys seen l = ks1 ++ v :: ks2 → u ∈ ks2 →
      firstIdx l v ≤ firstIdx l u := by
  intro l
  induction l with
  | nil =>
    intro seen ks1 ks2 h _
    exact absurd h.symm (List.append_ne_nil_of_right_ne_nil ks1 (List.cons_ne_nil v ks2))
  | cons a l ih =>
    intro seen ks1 ks2 h hu
    have hvmem : v ∈ newKeys seen l ∨ v = a ∨ True := Or.inr (Or.inr trivial)
    by_cases ha : a ∈ seen
    · rw [newKeys, if_pos ha] at h
      have hv : v ∈ newKeys seen l := by
        rw [h, List.mem_append]
        exact Or.inr (List.mem_cons_self v ks2)
      have hu' : u ∈ newKeys seen l := by
        rw [h, List.mem_append, List.mem_cons]
        exact Or.inr (Or.inr hu)
      have hva : v ≠ a := fun hva => ((mem_newKeys seen l v).mp hv).2 (hva ▸ ha)
      have hua : u ≠ a := fun hua => ((mem_newKeys seen l u).mp hu').2 (hua ▸ ha)
      rw [firstIdx, if_neg (fun h' => hva h'.symm), firstIdx,
        if_neg (fun h' => hua h'.symm)]
      exact Nat.succ_le_succ (ih seen ks1 ks2 h hu)
    · rw [newKeys, if_neg ha] at h
      cases ks1 with
      | nil =>
        rw [List.nil_append] at h
        have hva : v = a := (List.cons_eq_cons.mp h.symm).1
        rw [firstIdx, if_pos hva.symm]
        exact Nat.zero_le _
      | cons b ks1 =>
        rw [List.cons_append] at h
        obtain ⟨_, h2⟩ := List.cons_eq_cons.mp h
        have hv : v ∈ newKeys (a :: seen) l := by
          rw [h2, List.mem_append]
          exact Or.inr (List.mem_cons_self v ks2)
        have hu' : u ∈ newKeys (a :: seen) l := by
          rw [h2, List.mem_append, List.mem_cons]
          exact Or.inr (Or.inr hu)
        have hva : v ≠ a := fun hva =>
          ((mem_newKeys _ l v).mp hv).2 (hva ▸ List.mem_cons_self a seen)
        have hua : u ≠ a := fun hua =>
          ((mem_newKeys _ l u).mp hu').2 (hua ▸ List.mem_cons_self a seen)
        rw [firstIdx, if_neg (fun h' => hva h'.symm), firstIdx,
          if_neg (fun h' => hua h'.symm)]
        exact Nat.succ_le_succ (ih (a :: seen) ks1 ks2 h2 hu)

theorem mostCommon_spec (l : List String) (hne : l ≠ []) :
    mostCommonVal l ∈ l ∧
    (∀ u ∈ l, l.count u ≤ l.count (mostCommonVal l)) ∧
    (∀ u ∈ l, l.count u = l.count (mostCommonVal l) →
      firstIdx l (mostCommonVal l) ≤ firstIdx l u) := by
  have hkeys : ∀ x, x ∈ newKeys ([] : List String) l ↔ x ∈ l := by
    intro x
    rw [mem_newKeys]
    simp
  have hcnt := counterOf_eq l
  obtain ⟨a, ha⟩ := List.exists_mem_of_ne_nil l hne
  have hkne : newKeys ([] : List String) l ≠ [] := by
    intro h0
    have hmem := (hkeys a).mpr ha
    rw [h0] at hmem
    exact List.not_mem_nil a hmem
  rcases hmc : mc1 (counterOf l) with _ | ⟨v, c⟩
  · exfalso
    rw [hcnt, mc1_eq_none, List.map_eq_nil_iff] at hmc
    exact hkne hmc
  · have hval : mostCommonVal l = v := by rw [mostCommonVal, hmc]
    rw [hcnt] at hmc
    have hmax := mc1_map_max (fun x => l.count x) _ v c hmc
    obtain ⟨ks1, ks2, hks, hcv, hpre⟩ :=
      mc1_map_split (fun x => l.count x) _ v c hmc
    have hvl : v ∈ l := by
      refine (hkeys v).mp ?_
      rw [hks, List.mem_append]
      exact Or.inr (List.mem_cons_self v ks2)
    rw [hval]
    refine ⟨hvl, ?_, ?_⟩
    · intro u hu
      have hle := hmax u ((hkeys u).mpr hu)
      rw [hcv] at hle
      exact hle
    · intro u hu hcu
      have hu' : u ∈ newKeys ([] : List String) l := (hkeys u).mpr hu
      rw [hks] at hu'
      rcases List.mem_append.mp hu' with hu1 | hu2
      · exfalso
        have hlt := hpre u hu1
        rw [hcv, hcu] at hlt
        exact Nat.lt_irrefl _ hlt
      · rcases List.mem_cons.mp hu2 with rfl | hu2'
        · exact Nat.le_refl _
        · exact newKeys_split_firstIdx v u l [] ks1 ks2 hks hu2'

/-- C6: every community's label is the majority external category among
its members, formatted with the community size, ties resolved to the first
category encountered in the iteration order; and it is the synthetic
fallback `c{cid} (size=N)` exactly when no member of the community appears
in the character table. -/
theorem community_label_majority_rule (chars : List (String × String))
    (cid : Nat) (comm : List String) :
    ((communityFactions chars comm = []) ↔
      ∀ n ∈ comm, factionLookup chars n = none) ∧
    (communityFactions chars comm = [] →
      get_community_label chars cid comm =
        sizeLabel ("c" ++ toString cid) comm.length) ∧
    (communityFactions chars comm ≠ [] →
      ∃ v, get_community_label chars cid comm = sizeLabel v comm.length ∧
        v ∈ communityFactions chars comm ∧
        (∀ u ∈ communityFactions chars comm,
          (communityFactions chars comm).count u ≤
            (communityFactions chars comm).count v) ∧
        (∀ u ∈ communityFactions chars comm,
          (communityFactions chars comm).count u =
            (communityFactions chars comm).count v →
          firstIdx (communityFactions chars comm) v ≤
            firstIdx (communityFactions chars comm) u)) := by
  refine ⟨?_, ?_, ?_⟩
  · rw [communityFactions, List.filterMap_eq_nil_iff]
  · intro h
    rw [get_community_label, if_pos (List.isEmpty_iff.mpr h)]
  · intro h
    obtain ⟨hmem, hmax, htie⟩ := mostCommon_spec _ h
    refine ⟨mostCommonVal (communityFactions chars comm), ?_, hmem, hmax, htie⟩
    rw [get_community_label,
      if_neg (by rw [List.isEmpty_iff]; exact h)]

theorem community_label_majority_rule_witness :
    (communityFactions labelChars ["A", "B", "C", "D"] ≠ [] ∧
      ∃ v, get_community_label labelChars 0 ["A", "B", "C", "D"] =
          sizeLabel v (["A", "B", "C", "D"] : List String).length ∧
        v ∈ communityFactions labelChars ["A", "B", "C", "D"] ∧
        (∀ u ∈ communityFactions labelChars ["A", "B", "C", "D"],
          (communityFactions labelChars ["A", "B", "C", "D"]).count u ≤
            (communityFactions labelChars ["A", "B", "C", "D"]).count v) ∧
        (∀ u ∈ communityFactions labelChars ["A", "B", "C", "D"],
          (communityFactions labelChars ["A", "B", "C", "D"]).count u =
            (communityFactions labelChars ["A", "B", "C", "D"]).count v →
          firstIdx (communityFactions labelChars ["A", "B", "C", "D"]) v ≤
            firstIdx (communityFactions labelChars ["A", "B", "C", "D"]) u)) ∧
    (communityFactions labelChars ["Z"] = [] ∧
      get_community_label labelChars 0 ["Z"] =
        sizeLabel ("c" ++ toString 0) (["Z"] : List String).length) :=
  ⟨⟨by decide,
      (community_label_majority_rule labelChars 0 ["A", "B", "C", "D"]).2.2
        (by decide)⟩,
    ⟨by decide,
      (community_label_majority_rule labelChars 0 ["Z"]).2.1 (by decide)⟩⟩

/-- C7 (amended): the validating reader `read_data` aborts on every input
missing a required column, before any graph is built; the export
pipelines, which skip validation, raise a `KeyError` at the first record —
before any node or edge is added to the accumulated graph — so the run
aborts with no partial graph whenever at least one record is present; an
input with zero records and a missing required column, however, is not
detected there and the run completes on an empty graph. -/
theorem missing_columns_abort (t : RawTable) (th : ℚ) :
    ((t.hasSource && t.hasTarget) = false →
      read_data t = .error .missingRequiredColumns) ∧
    (t.hasSource = false → t.rows ≠ [] →
      build_graph t th = .error .missingSourceKey) ∧
    (t.hasSource = true → t.hasTarget = false → t.rows ≠ [] →
      build_graph t th = .error .missingTargetKey) ∧
    (∀ (r : RawRow) (rs : List RawRow) (G : GraphS String),
      t.hasSource = false →
      buildRows t.hasSource t.hasTarget th (r :: rs) G =
        .error .missingSourceKey) := by
  refine ⟨?_, ?_, ?_, ?_⟩
  · intro h
    simp only [read_data, h, Bool.false_eq_true, if_false]
  · intro hs hrows
    cases htr : t.rows with
    | nil => exact absurd htr hrows
    | cons r rs =>
      simp only [build_graph, htr, buildRows, hs, Bool.false_eq_true, if_false]
  · intro hs ht hrows
    cases htr : t.rows with
    | nil => exact absurd htr hrows
    | cons r rs =>
      simp only [build_graph, htr, buildRows, hs, ht, Bool.false_eq_true,
        if_true, if_false]
  · intro r rs G hs
    simp only [buildRows, hs, Bool.false_eq_true, if_false]

theorem missing_columns_abort_witness :
    ((missingSourceRowTable.hasSource && missingSourceRowTable.hasTarget) = false ∧
      read_data missingSourceRowTable = .error .missingRequiredColumns) ∧
    (missingSourceRowTable.hasSource = false ∧ missingSourceRowTable.rows ≠ [] ∧
      build_graph missingSourceRowTable 4 = .error .missingSourceKey) :=
  ⟨⟨rfl, (missing_columns_abort missingSourceRowTable 4).1 rfl⟩,
    ⟨rfl, by decide,
      (missing_columns_abort missingSourceRowTable 4).2.1 rfl (by decide)⟩⟩

/-- C7 counterexample: an edge input with zero records and no `source`
column runs through the dashboard pipeline to completion — no fatal error
is raised, refuting the claim that every input missing a required column
aborts the run. -/
theorem missing_column_run_completes_counterexample :
    missingSourceTable.hasSource = false ∧
    dashboard_pipeline missingSourceTable 4 3 = .ok (⟨[]⟩, []) :=
  ⟨rfl, rfl⟩

theorem buildFold_skips_noneWeight (th : ℚ) :
    ∀ (rows : List RawRow) (G : GraphS String),
      buildFold rows G th =
        buildFold (rows.filter (fun r => !r.weight.isNone)) G th := by
  intro rows
  induction rows with
  | nil => intro G; rfl
  | cons r rows ih =>
    intro G
    rcases hw : r.weight with _ | w
    · have hdrop : addRecord G r th = G := by
        simp only [addRecord, hw, survives, Bool.false_eq_true, if_false]
      rw [buildFold, hdrop, List.filter_cons, if_neg (by rw [hw]; simp)]
      exact ih G
    · rw [buildFold, List.filter_cons, if_pos (by rw [hw]; simp), buildFold]
      exact ih (addRecord G r th)

/-- C8 (amended): when the `weight` column is absent entirely, every
record is defaulted to weight 1.0 and no error is raised; when the column
is present but a record's weight cell is empty, no error is raised either
— the empty cell parses to NaN, which fails every inclusive threshold
comparison, so the record is silently dropped rather than reported. -/
theorem weight_default_and_empty_cell (t : RawTable) (th : ℚ) :
    (t.hasSource = true → t.hasTarget = true → t.hasWeight = false →
      read_data t =
        .ok ({ t with hasWeight := true, rows := defaultWeights t.rows })) ∧
    (t.hasWeight = false →
      read_inputs t = ({ t with hasWeight := true, rows := defaultWeights t.rows })) ∧
    (∀ (rows : List RawRow) (G : GraphS String),
      buildFold rows G th =
        buildFold (rows.filter (fun r => !r.weight.isNone)) G th) ∧
    (t.hasSource = true → t.hasTarget = true →
      build_graph t th = .ok (buildFold t.rows ⟨[]⟩ th)) := by
  refine ⟨?_, ?_, buildFold_skips_noneWeight th, ?_⟩
  · intro hs ht hw
    simp only [read_data, hs, ht, Bool.and_self, if_true, read_inputs, hw,
      Bool.false_eq_true, if_false]
  · intro hw
    simp only [read_inputs, hw, Bool.false_eq_true, if_false]
  · intro hs ht
    rw [build_graph, hs, ht]
    exact buildRows_ok t.rows ⟨[]⟩ th

theorem weight_default_and_empty_cell_witness :
    (noWeightColTable.hasSource = true ∧ noWeightColTable.hasTarget = true ∧
      noWeightColTable.hasWeight = false ∧
      read_data noWeightColTable =
        .ok ({ noWeightColTable with
               hasWeight := true
               rows := defaultWeights noWeightColTable.rows })) ∧
    (emptyWeightTable.hasSource = true ∧ emptyWeightTable.hasTarget = true ∧
      build_graph emptyWeightTable 0 =
        .ok (buildFold emptyWeightTable.rows ⟨[]⟩ 0)) :=
  ⟨⟨rfl, rfl, rfl,
      (weight_default_and_empty_cell noWeightColTable 0).1 rfl rfl rfl⟩,
    ⟨rfl, rfl, (weight_default_and_empty_cell emptyWeightTable 0).2.2.2 rfl rfl⟩⟩

/-- C8 counterexample: the input whose single record `A-B` has an empty
weight cell is processed by the validating pipeline without any error
(threshold 0): the record is silently dropped — its NaN weight fails the
comparison — and the run returns an empty graph instead of reporting an
input error. -/
theorem empty_weight_no_error_counterexample :
    cpm_pipeline emptyWeightTable 0 = .ok ⟨[]⟩ ∧
    build_graph (read_inputs emptyWeightTable) 0 = .ok ⟨[]⟩ :=
  ⟨rfl, rfl⟩

/-- C9: the layout engine is deterministic — a second run on the identical
graph with the identical fixed seed and parameters produces identical
positions, independently of the ambient process random state, and both
export scripts' layout calls compute the same `build_positions`. -/
theorem layout_deterministic {α : Type} [DecidableEq α] (G : GraphS α)
    (s : Nat) :
    (layout_run G s).1 = (layout_run G (layout_run G s).2).1 ∧
    (layout_run G s).1 = build_positions G ∧
    spring_layout G 42 (9 / 20) 200 = build_positions G := by
  simp only [layout_run, build_positions]
  exact ⟨trivial, trivial, trivial⟩
